import Mathlib

/-!
Verification development for the Context-Studio repository.

The definitions below are shallow embeddings of the Python sources:
  src/model/context_builder.py  (ContextBuilder)
  src/model/file_scanner.py     (FileScanner)
  src/model/project_tree_model.py (ProjectTreeModel)
Machine integers do not occur; sizes are natural numbers.  File system
state is passed explicitly.  Definitions named in snake_case mirror the
Python methods of the same name.
-/
/-! ## Paths

A filesystem path is modelled as its list of components, already
resolved.  The last component is the entry name. -/
abbrev FPath := List String

/-- Boolean test: s is an initial segment of l. -/
def pfxChars : List Char → List Char → Bool
  | [], _ => true
  | _ :: _, [] => false
  | a :: as, b :: bs => a = b && pfxChars as bs

/-- Boolean substring test. -/
def hasSub (sub : List Char) : List Char → Bool
  | [] => pfxChars sub []
  | l@(_ :: t) => pfxChars sub l || hasSub sub t

/-- str.startswith, on the character lists. -/
def strStartsWith (s pre : String) : Bool := pfxChars pre.data s.data

/-- Python str whitespace test (the characters stripped by str.strip). -/
def isPySpace (c : Char) : Bool :=
  c = ' ' || c = '\t' || c = '\n' || c = '\r' || c = '\x0b' || c = '\x0c'

/-- str.strip: remove leading and trailing whitespace. -/
def pyStrip (s : String) : String :=
  String.mk (((s.data.dropWhile isPySpace).reverse.dropWhile isPySpace).reverse)

/-- Base name of a path, as in the name attribute of pathlib.Path. -/
def pathName (p : FPath) : String := p.getLastD ""

/-- Models target.relative_to(root): succeeds iff root is an initial
segment of target, returning the remaining components. -/
def dropRoot : FPath → FPath → Option FPath
  | [], t => some t
  | _ :: _, [] => none
  | r :: rs, t :: ts => if r = t then dropRoot rs ts else none

/-! ## ContextBuilder._read_file_safe

The per-file observable filesystem state.  The utf-8 decodings are kept
as oracle data (the code only branches on whether the codec raised
UnicodeDecodeError); the latin-1 decoding is computed, because the
latin-1 codec maps every byte to the character of the same code point
and never fails, which is exactly what claim C10 is about. -/
structure FileData where
  /-- file_path.exists() -/
  present : Bool
  /-- file_path.is_file(), consulted by _read_special_file only -/
  isFile : Bool
  /-- st_size from stat; none models an OSError from stat -/
  size : Option Nat
  /-- raw content bytes -/
  bytes : List UInt8
  /-- open() succeeds; false models PermissionError -/
  perm : Bool
  /-- some msg models any other OSError while opening or reading -/
  osErr : Option String
  /-- result of decoding bytes as utf-8, none models UnicodeDecodeError -/
  utf8 : Option String
  /-- result of decoding bytes as utf-8-sig, none models UnicodeDecodeError -/
  utf8sig : Option String

/-- The latin-1 codec: every byte decodes to the character with the same
code point, so decoding never fails. -/
def latin1Decode (bs : List UInt8) : String :=
  String.mk (bs.map (fun b => Char.ofNat b.toNat))

/-- The ordered encoding list of _read_file_safe. -/
inductive PyEncoding where
  | utf8
  | utf8sig
  | latin1
deriving DecidableEq

def encodings_to_try : List PyEncoding := [.utf8, .utf8sig, .latin1]

/-- One iteration of the encoding loop: none models UnicodeDecodeError
(the loop continues), some s models a successful full read. -/
def decodeAttempt (fd : FileData) : PyEncoding → Option String
  | .utf8 => fd.utf8
  | .utf8sig => fd.utf8sig
  | .latin1 => some (latin1Decode fd.bytes)

/-- The encoding loop of _read_file_safe, after the permission and OS
error cases have been dispatched. -/
def readLoop (fd : FileData) : List PyEncoding → Option String
  | [] => none
  | e :: rest =>
    match decodeAttempt fd e with
    | some s => some s
    | none => readLoop fd rest

/-- ContextBuilder.MAX_FILE_SIZE_BYTES -/
def MAX_FILE_SIZE_BYTES : Nat := 1000000

/-- ContextBuilder._read_file_safe. -/
def read_file_safe (fd : FileData) : String :=
  if fd.present = false then "[Error: File not found]"
  else
    match fd.size with
    | none => "[Error: Could not access file metadata]"
    | some size =>
      if size > MAX_FILE_SIZE_BYTES then
        "[Error: File too large to include (" ++ toString size ++ " bytes)]"
      else if size = 0 then ""
      else if fd.perm = false then "[Error: Permission denied]"
      else
        match fd.osErr with
        | some m => "[Error: System error " ++ m ++ "]"
        | none =>
          match readLoop fd encodings_to_try with
          | some s => s
          | none => "[Error: Binary or unsupported encoding]"

/-- ContextBuilder._read_special_file. -/
def read_special_file (fd : FileData) : Option String :=
  if fd.present = false ∨ fd.isFile = false then none
  else
    let content := read_file_safe fd
    if strStartsWith content "[Error" then none
    else some (pyStrip content)

/-- ContextBuilder._get_relative_path_safe.  Python returns "." when
target equals root; the ValueError fallback returns the base name. -/
def get_relative_path_safe (target root : FPath) : String :=
  match dropRoot root target with
  | some [] => "."
  | some rest => String.intercalate "/" rest
  | none => pathName target

/-- pathlib suffix of a base name: the segment from the last dot when
that dot is neither the first nor the last character, else empty. -/
def pySuffix (nm : List Char) : List Char :=
  let rev := nm.reverse
  match rev.findIdx? (fun c => c = '.') with
  | none => []
  | some k => if 0 < k ∧ k + 1 < nm.length then (rev.take (k + 1)).reverse else []

/-- file_path.suffix.lstrip(dot) or "text". -/
def extensionTag (nm : String) : String :=
  let s := (pySuffix nm.data).dropWhile (fun c => c = '.')
  if s.isEmpty then "text" else String.mk s

def HEADER_FILENAME : String := "context_header.md"

def FOOTER_FILENAME : String := "context_footer.md"

/-- The contribution of one selected file to output_parts: nothing when
the name matches the header or footer file name, nothing when the read
yields the empty string, otherwise one formatted part. -/
def filePart (fs : FPath → FileData) (root : FPath) (p : FPath) : List String :=
  if pathName p = HEADER_FILENAME ∨ pathName p = FOOTER_FILENAME then []
  else
    let content := read_file_safe (fs p)
    if content = "" then []
    else
      let rel := get_relative_path_safe p root
      let ext := extensionTag (pathName p)
      ["## File: " ++ rel ++ "\n```" ++ ext ++ "\n" ++ content ++ "\n```\n"]

/-- The list output_parts as assembled by build_context_string. -/
def buildParts (fs : FPath → FileData) (file_paths : List FPath) (root : FPath) :
    List String :=
  let pre : List String :=
    ["# Context Injection\n",
     "The following codebase context was automatically defined as important for this prompt:\n"]
  let headerParts : List String :=
    match read_special_file (fs (root ++ [HEADER_FILENAME])) with
    | some c => if c = "" then [] else [c ++ "\n"]
    | none => []
  let fileParts : List String := (file_paths.map (filePart fs root)).flatten
  let footerParts : List String :=
    match read_special_file (fs (root ++ [FOOTER_FILENAME])) with
    | some c => if c = "" then [] else ["\n" ++ c]
    | none => []
  pre ++ headerParts ++ fileParts ++ footerParts

/-- The join of output_parts with a newline separator. -/
def joinNL : List String → String
  | [] => ""
  | [x] => x
  | x :: y :: xs => x ++ "\n" ++ joinNL (y :: xs)

/-- ContextBuilder.build_context_string. -/
def build_context_string (fs : FPath → FileData) (file_paths : List FPath)
    (root : FPath) : String :=
  joinNL (buildParts fs file_paths root)

/-- ContextBuilder.estimate_token_count. -/
def estimate_token_count (text : String) : Nat :=
  if text = "" then 0 else text.length / 4

/-- The document doc contains sub as a contiguous substring. -/
def containsStr (doc sub : String) : Prop := ∃ a b : String, doc = a ++ sub ++ b

def c5exRoot : FPath := ["r"]

def c5exFile : FPath := ["r", "context_header.md"]

/-- Filesystem for the C5 counterexample: the root holds only an
oversized file named context_header.md; nothing else exists. -/
def c5exFS : FPath → FileData := fun p =>
  if p = c5exFile then ⟨true, true, some 2000000, [], true, none, none, none⟩
  else ⟨false, false, none, [], true, none, none, none⟩

/-- Witness for the amended C5: a concrete filesystem with one empty file
and one oversized file, both selected. -/
def c5wRoot : FPath := ["w"]

def c5wEmpty : FPath := ["w", "empty.txt"]

def c5wBig : FPath := ["w", "big.txt"]

def c5wFS : FPath → FileData := fun p =>
  if p = c5wEmpty then ⟨true, true, some 0, [], true, none, none, none⟩
  else if p = c5wBig then ⟨true, true, some 1500000, [], true, none, none, none⟩
  else ⟨false, false, none, [], true, none, none, none⟩

/-! ## FileScanner

Directories are identified by their filesystem identity (the st_dev and
st_ino pair), modelled as a natural number.  A directory listing is what
os.scandir returns; an entry is a real directory, a real file, or a
symbolic link (for which both is_dir and is_file are false when
follow_symlinks is false, as in the source).  Per-entry permission
errors are not modelled; the claims under study do not involve them. -/
inductive DirEntry where
  | dirE (name : String) (ident : Nat)
  | fileE (name : String)
  | linkE (name : String) (targetIsDir : Bool) (target : Nat)

structure ScanFS where
  entries : Nat → List DirEntry

/-- The scan result: files are None in the Python dictionary, directories
are nested dictionaries; insertion order is kept. -/
inductive ScanNode where
  | file
  | dir (entries : List (String × ScanNode))

/-- The body of the entry loop of _recursive_scan.  The visited set is
the single Python set object: updates made while scanning one child are
visible when scanning the next sibling, so it is threaded through.  The
recursive call is abstracted as rec (the scan at the remaining fuel). -/
def scanEntries (excl : List String)
    (rec : Nat → List Nat → List (String × ScanNode) × List Nat) :
    List DirEntry → List Nat → List (String × ScanNode) × List Nat
  | [], v => ([], v)
  | e :: es, v =>
    match e with
    | .dirE nm cid =>
      if nm ∈ excl then scanEntries excl rec es v
      else
        let r := rec cid v
        let rest := scanEntries excl rec es r.2
        ((nm, ScanNode.dir r.1) :: rest.1, rest.2)
    | .fileE nm =>
      let rest := scanEntries excl rec es v
      ((nm, ScanNode.file) :: rest.1, rest.2)
    | .linkE _ _ _ => scanEntries excl rec es v

/-- FileScanner._recursive_scan, with fuel making the recursion
manifestly total.  The identity of the current directory is checked
against the visited set and then added to it; the set is never pruned. -/
def recursive_scan (fs : ScanFS) (excl : List String) :
    Nat → Nat → List Nat → List (String × ScanNode) × List Nat
  | 0, _, v => ([], v)
  | fuel + 1, d, v =>
    if d ∈ v then ([], v)
    else scanEntries excl (recursive_scan fs excl fuel) (fs.entries d) (d :: v)

/-- FileScanner.scan: starts with an empty visited set. -/
def scan (fs : ScanFS) (excl : List String) (fuel : Nat) (rootIdent : Nat) :
    List (String × ScanNode) :=
  (recursive_scan fs excl fuel rootIdent []).1

/-- Modelled from the spec for comparison: the guard set holds only the
identities on the current root-to-node ancestor path; it is passed down
but never returned, so siblings are scanned with the same set. -/
def recursive_scan_ancestors (fs : ScanFS) (excl : List String) :
    Nat → Nat → List Nat → List (String × ScanNode)
  | 0, _, _ => []
  | fuel + 1, d, v =>
    if d ∈ v then []
    else
      (fs.entries d).filterMap (fun e =>
        match e with
        | .dirE nm cid =>
          if nm ∈ excl then none
          else some (nm, ScanNode.dir (recursive_scan_ancestors fs excl fuel cid (d :: v)))
        | .fileE nm => some (nm, ScanNode.file)
        | .linkE _ _ _ => none)

/-- Modelled from the spec for comparison: entries classified by their
resolved type, a symbolic link to a directory scanned as a directory and
a symbolic link to a regular file kept as a file leaf. -/
def scanEntriesResolved (excl : List String)
    (rec : Nat → List Nat → List (String × ScanNode) × List Nat) :
    List DirEntry → List Nat → List (String × ScanNode) × List Nat
  | [], v => ([], v)
  | e :: es, v =>
    match e with
    | .dirE nm cid =>
      if nm ∈ excl then scanEntriesResolved excl rec es v
      else
        let r := rec cid v
        let rest := scanEntriesResolved excl rec es r.2
        ((nm, ScanNode.dir r.1) :: rest.1, rest.2)
    | .fileE nm =>
      let rest := scanEntriesResolved excl rec es v
      ((nm, ScanNode.file) :: rest.1, rest.2)
    | .linkE nm isDirTarget tgt =>
      if isDirTarget then
        if nm ∈ excl then scanEntriesResolved excl rec es v
        else
          let r := rec tgt v
          let rest := scanEntriesResolved excl rec es r.2
          ((nm, ScanNode.dir r.1) :: rest.1, rest.2)
      else
        let rest := scanEntriesResolved excl rec es v
        ((nm, ScanNode.file) :: rest.1, rest.2)

def recursive_scan_resolved (fs : ScanFS) (excl : List String) :
    Nat → Nat → List Nat → List (String × ScanNode) × List Nat
  | 0, _, v => ([], v)
  | fuel + 1, d, v =>
    if d ∈ v then ([], v)
    else scanEntriesResolved excl (recursive_scan_resolved fs excl fuel) (fs.entries d) (d :: v)

/-! ## FileScanner.__init__ (claim C8) -/
structure FSView where
  pexists : FPath → Bool
  pisDir : FPath → Bool

/-- FileScanner.__init__: the defensive root checks, raising ValueError
as an error value.  The root is taken as already resolved. -/
def file_scanner_init (v : FSView) (root : FPath) : Except String Unit :=
  if v.pexists root = false then
    .error ("Path does not exist: " ++ String.intercalate "/" root)
  else if v.pisDir root = false then
    .error ("Path is not a directory: " ++ String.intercalate "/" root)
  else .ok ()

/-- Identity listing of the C3 counterexample: the root directory 0 has
two subdirectory entries A and B that share identity 1 (as with a bind
mount); identity 1 holds one file. B is not scanned through the ancestor
path of A, yet the global guard suppresses its content. -/
def c3exFS : ScanFS :=
  ⟨fun d => if d = 0 then [.dirE "A" 1, .dirE "B" 1]
    else if d = 1 then [.fileE "f"] else []⟩

/-- Cyclic filesystem: directory 0 holds sub with identity 1, which holds
a link back to identity 0 (the cycle) and a file g. -/
def c3cycleFS : ScanFS :=
  ⟨fun d => if d = 0 then [.dirE "sub" 1]
    else if d = 1 then [.dirE "back" 0, .fileE "g"] else []⟩

/-- Filesystem for the C7 counterexample: the root holds a single
symbolic link to a regular file. -/
def c7exFS : ScanFS := ⟨fun d => if d = 0 then [.linkE "s" false 5] else []⟩

def c8exView : FSView := ⟨fun _ => false, fun _ => false⟩

/-! ## ProjectTreeModel

Check states: mixed models Qt.PartiallyChecked.  An item carries its
display name, the stored absolute path, whether it was built from a
directory entry, its check state and its child items; files have no
children.  The invisible root is modelled by the list of top level
items. -/
inductive CState where
  | unchecked
  | checked
  | mixed
deriving DecidableEq

inductive Item where
  | mk (name : String) (path : FPath) (isDir : Bool) (state : CState)
      (children : List Item)

def Item.name : Item → String
  | .mk n _ _ _ _ => n

def Item.path : Item → FPath
  | .mk _ p _ _ _ => p

def Item.isDir : Item → Bool
  | .mk _ _ d _ _ => d

def Item.state : Item → CState
  | .mk _ _ _ s _ => s

def Item.children : Item → List Item
  | .mk _ _ _ _ cs => cs

/-! ### populate and _build_tree_recursive -/
/-- Lexicographic order on code points, as Python string comparison. -/
def charListLe : List Char → List Char → Bool
  | [], _ => true
  | _ :: _, [] => false
  | a :: as, b :: bs => if a < b then true else if b < a then false else charListLe as bs

/-- str.lower on the character list (the ASCII fragment, as
Char.toLower). -/
def pyLower (s : String) : List Char := s.data.map Char.toLower

/-- The sort key of _build_tree_recursive: directories before files,
then case-insensitive name. -/
def itemLe (a b : Item) : Bool :=
  let ra : Nat := if a.isDir then 0 else 1
  let rb : Nat := if b.isDir then 0 else 1
  if ra < rb then true
  else if rb < ra then false
  else charListLe (pyLower a.name) (pyLower b.name)

def insertItem (x : Item) : List Item → List Item
  | [] => [x]
  | y :: ys => if itemLe y x then y :: insertItem x ys else x :: y :: ys

/-- A stable sort by itemLe (sorted, like the Python sort, which is
stable with this key). -/
def sortItems (l : List Item) : List Item :=
  l.foldl (fun acc x => insertItem x acc) []

mutual
/-- _build_tree_recursive for a single entry: files become leaves in the
unchecked state, directories are built recursively with their children
sorted directories-first then case-insensitively. -/
def buildItem (cur : FPath) (nm : String) : ScanNode → Item
  | .file => .mk nm (cur ++ [nm]) false .unchecked []
  | .dir es => .mk nm (cur ++ [nm]) true .unchecked
      (sortItems (buildList (cur ++ [nm]) es))
termination_by sn => sizeOf sn
decreasing_by simp only [ScanNode.dir.sizeOf_spec]; omega

def buildList (cur : FPath) : List (String × ScanNode) → List Item
  | [] => []
  | (nm, sn) :: es => buildItem cur nm sn :: buildList cur es
termination_by es => sizeOf es
decreasing_by
  · simp only [Prod.mk.sizeOf_spec, List.cons.sizeOf_spec]; omega
  · simp only [Prod.mk.sizeOf_spec, List.cons.sizeOf_spec]; omega
end

/-- ProjectTreeModel.populate: the forest of top level items. -/
def populate (scanData : List (String × ScanNode)) (rootPath : FPath) : List Item :=
  sortItems (buildList rootPath scanData)

/-! ### The toggle algorithm of on_item_changed -/
/-- The states of a list of child items. -/
def statesOf (cs : List Item) : List CState := cs.map Item.state

/-- The recomputation of _update_parent_state from the direct children:
Checked when every child is Checked, Partial when some child is Checked
or Partial, else Unchecked. -/
def recomputeOf (sts : List CState) : CState :=
  if sts.countP (fun s => s = .checked) = sts.length then .checked
  else if 0 < sts.countP (fun s => s = .checked) ∨ 0 < sts.countP (fun s => s = .mixed)
    then .mixed
  else .unchecked

mutual
/-- _set_children_state together with the initial setCheckState on the
item itself: the whole subtree is forced to the one state. -/
def setAllState (s : CState) : Item → Item
  | .mk n p d _ cs => .mk n p d s (setAllList s cs)
termination_by t => sizeOf t
decreasing_by simp only [Item.mk.sizeOf_spec, List.cons.sizeOf_spec]; omega

def setAllList (s : CState) : List Item → List Item
  | [] => []
  | c :: cs => setAllState s c :: setAllList s cs
termination_by l => sizeOf l
decreasing_by
  · simp only [List.cons.sizeOf_spec]; omega
  · simp only [List.cons.sizeOf_spec]; omega
end

/-- on_item_changed for the node addressed by the index path inside one
top level item.  The first component is the updated item; the second is
true when the enclosing parent must recompute its state (always for the
toggled node itself; above that, only while recomputed states keep
changing, the early stop of _update_parent_state). -/
def toggleAux (s : CState) : List Nat → Item → Item × Bool
  | [], t => (setAllState s t, true)
  | i :: rest, .mk n p d st cs =>
    match cs[i]? with
    | none => (.mk n p d st cs, false)
    | some c =>
      let r := toggleAux s rest c
      let cs1 := cs.set i r.1
      if r.2 then
        let ns := recomputeOf (statesOf cs1)
        if ns = st then (.mk n p d st cs1, false)
        else (.mk n p d ns cs1, true)
      else (.mk n p d st cs1, false)

/-- A toggle on the whole model: the index path starts at a top level
item, whose parent is the invisible root (None in the source, so upward
recomputation stops there). -/
def toggleForest (s : CState) (f : List Item) : List Nat → List Item
  | [] => f
  | i :: rest =>
    match f[i]? with
    | none => f
    | some t => f.set i (toggleAux s rest t).1

/-- A user toggle sequence: each element addresses a node and sets it to
Checked (true) or Unchecked (false), the two states a user click can
request. -/
def applyToggles (f : List Item) (l : List (List Nat × Bool)) : List Item :=
  l.foldl (fun g pr =>
    toggleForest (if pr.2 then CState.checked else CState.unchecked) g pr.1) f

/-- The state of the node addressed by an index path. -/
def stateAt : Item → List Nat → Option CState
  | t, [] => some t.state
  | t, i :: rest =>
    match t.children[i]? with
    | none => none
    | some c => stateAt c rest

def stateAtForest (f : List Item) : List Nat → Option CState
  | [] => none
  | i :: rest =>
    match f[i]? with
    | none => none
    | some t => stateAt t rest

/-! ### Tree predicates -/
mutual
/-- Every node of the subtree carries the given state. -/
def allStateB (s : CState) : Item → Bool
  | .mk _ _ _ st cs => decide (st = s) && allStateList s cs
termination_by t => sizeOf t
decreasing_by simp only [Item.mk.sizeOf_spec, List.cons.sizeOf_spec]; omega

def allStateList (s : CState) : List Item → Bool
  | [] => true
  | c :: cs => allStateB s c && allStateList s cs
termination_by l => sizeOf l
decreasing_by
  · simp only [List.cons.sizeOf_spec]; omega
  · simp only [List.cons.sizeOf_spec]; omega
end

mutual
/-- Well-formedness of populate output: an item not built from a
directory has no children. -/
def wfB : Item → Bool
  | .mk _ _ d _ cs => (d || cs.isEmpty) && wfList cs
termination_by t => sizeOf t
decreasing_by simp only [Item.mk.sizeOf_spec, List.cons.sizeOf_spec]; omega

def wfList : List Item → Bool
  | [] => true
  | c :: cs => wfB c && wfList cs
termination_by l => sizeOf l
decreasing_by
  · simp only [List.cons.sizeOf_spec]; omega
  · simp only [List.cons.sizeOf_spec]; omega
end

mutual
/-- No empty directories: every directory item has at least one child. -/
def noEmptyB : Item → Bool
  | .mk _ _ d _ cs => (!d || !cs.isEmpty) && noEmptyList cs
termination_by t => sizeOf t
decreasing_by simp only [Item.mk.sizeOf_spec, List.cons.sizeOf_spec]; omega

def noEmptyList : List Item → Bool
  | [] => true
  | c :: cs => noEmptyB c && noEmptyList cs
termination_by l => sizeOf l
decreasing_by
  · simp only [List.cons.sizeOf_spec]; omega
  · simp only [List.cons.sizeOf_spec]; omega
end

mutual
/-- The machine invariant maintained by the toggle algorithm: a childless
node is never Partial, and a node with children carries exactly the state
_update_parent_state recomputes from its direct children. -/
def invB : Item → Bool
  | .mk _ _ _ st cs =>
    (if cs.isEmpty then decide (st ≠ .mixed)
     else decide (st = recomputeOf (statesOf cs))) && invList cs
termination_by t => sizeOf t
decreasing_by simp only [Item.mk.sizeOf_spec, List.cons.sizeOf_spec]; omega

def invList : List Item → Bool
  | [] => true
  | c :: cs => invB c && invList cs
termination_by l => sizeOf l
decreasing_by
  · simp only [List.cons.sizeOf_spec]; omega
  · simp only [List.cons.sizeOf_spec]; omega
end

mutual
/-- The check states of the descendant File leaves (File nodes are the
items not built from directories). -/
def leafStates : Item → List CState
  | .mk _ _ d st cs => if d then leafStatesList cs else [st]
termination_by t => sizeOf t
decreasing_by simp only [Item.mk.sizeOf_spec, List.cons.sizeOf_spec]; omega

def leafStatesList : List Item → List CState
  | [] => []
  | c :: cs => leafStates c ++ leafStatesList cs
termination_by l => sizeOf l
decreasing_by
  · simp only [List.cons.sizeOf_spec]; omega
  · simp only [List.cons.sizeOf_spec]; omega
end

mutual
/-- The invariant exactly as claim C1 states it: every directory node is
Checked iff all of its descendant File leaves are Checked, Unchecked iff
none is Checked, and Partial otherwise. -/
def claimInvB : Item → Bool
  | .mk _ _ d st cs =>
    (if d then
      (decide (st = .checked) == (leafStatesList cs).all (fun s => decide (s = .checked))) &&
      (decide (st = .unchecked) == (leafStatesList cs).all (fun s => !decide (s = .checked))) &&
      (decide (st = .mixed) ==
        (!(leafStatesList cs).all (fun s => decide (s = .checked)) &&
         !(leafStatesList cs).all (fun s => !decide (s = .checked))))
     else true) && claimInvList cs
termination_by t => sizeOf t
decreasing_by simp only [Item.mk.sizeOf_spec, List.cons.sizeOf_spec]; omega

def claimInvList : List Item → Bool
  | [] => true
  | c :: cs => claimInvB c && claimInvList cs
termination_by l => sizeOf l
decreasing_by
  · simp only [List.cons.sizeOf_spec]; omega
  · simp only [List.cons.sizeOf_spec]; omega
end

/-- A selection state of the model that can actually arise: the populate
output of some scan, followed by any sequence of user toggles. -/
def Reachable (f : List Item) : Prop :=
  ∃ (sd : List (String × ScanNode)) (rp : FPath) (toggles : List (List Nat × Bool)),
    f = applyToggles (populate sd rp) toggles

def c1wScan : List (String × ScanNode) := [("d", .dir [("a", .file)]), ("b", .file)]

def c1exScan : List (String × ScanNode) := [("E", .dir [])]

def c2exScan : List (String × ScanNode) := [("D", .dir [("f", .file), ("g", .file)])]

/-! ### get_checked_files (claim C4) -/
mutual
def itemSize : Item → Nat
  | .mk _ _ _ _ cs => 1 + itemSizeList cs
termination_by t => sizeOf t
decreasing_by simp only [Item.mk.sizeOf_spec, List.cons.sizeOf_spec]; omega

def itemSizeList : List Item → Nat
  | [] => 0
  | c :: cs => itemSize c + itemSizeList cs
termination_by l => sizeOf l
decreasing_by
  · simp only [List.cons.sizeOf_spec]; omega
  · simp only [List.cons.sizeOf_spec]; omega
end

theorem itemSize_pos (t : Item) : 1 ≤ itemSize t := by
  cases t with
  | mk n p d st cs => simp [itemSize]

theorem itemSizeList_cons (c : Item) (cs : List Item) :
    itemSizeList (c :: cs) = itemSize c + itemSizeList cs := by
  simp [itemSizeList]

theorem itemSizeList_append : ∀ l1 l2 : List Item,
    itemSizeList (l1 ++ l2) = itemSizeList l1 + itemSizeList l2 := by
  intro l1 l2
  induction l1 with
  | nil => simp [itemSizeList]
  | cons c cs ih => simp [itemSizeList_cons, ih]; omega

theorem itemSizeList_reverse : ∀ l : List Item, itemSizeList l.reverse = itemSizeList l := by
  intro l
  induction l with
  | nil => rfl
  | cons c cs ih =>
    simp [List.reverse_cons, itemSizeList_append, itemSizeList_cons, ih, itemSizeList]
    omega

theorem itemSizeList_filter_le (q : Item → Bool) : ∀ l : List Item,
    itemSizeList (l.filter q) ≤ itemSizeList l := by
  intro l
  induction l with
  | nil => simp [itemSizeList]
  | cons c cs ih =>
    rw [List.filter_cons]
    cases q c with
    | true => simp only [if_true, itemSizeList_cons]; omega
    | false =>
      simp only [Bool.false_eq_true, if_false, itemSizeList_cons]
      have := itemSize_pos c
      omega

theorem itemSizeList_children_lt (t : Item) : itemSizeList t.children < itemSize t := by
  cases t with
  | mk n p d st cs => simp [itemSize, Item.children]

/-- The while loop of get_checked_files.  The stack is kept top-first
(the Python list end is our head): popping takes the head, and pushing
the directory children of the popped item in row order places them
reversed on top.  Childless checked items contribute their stored path
in row order while their parent is processed. -/
def gcfAux : List Item → List FPath
  | [] => []
  | t :: rest =>
    ((t.children.filter (fun c => c.children.isEmpty && decide (c.state = .checked))).map
        Item.path)
      ++ gcfAux ((t.children.filter (fun c => !c.children.isEmpty)).reverse ++ rest)
termination_by l => itemSizeList l
decreasing_by
  have h1 := itemSizeList_filter_le (fun c => !c.children.isEmpty) y.children
  have h2 := itemSizeList_children_lt y
  rw [itemSizeList_append, itemSizeList_reverse, itemSizeList_cons]
  omega

/-- ProjectTreeModel.get_checked_files: the stack starts with the
invisible root item, whose rows are the top level items. -/
def get_checked_files (f : List Item) : List FPath :=
  gcfAux [Item.mk "" [] true .unchecked f]

mutual
/-- Reference description of the traversal order actually produced: a
node contributes the paths of its childless Checked children in row
order, followed by the contents of its directory children processed in
reverse row order, depth first. -/
def refNode : Item → List FPath
  | .mk _ _ _ _ cs =>
    ((cs.filter (fun c => c.children.isEmpty && decide (c.state = .checked))).map Item.path)
      ++ refList ((cs.filter (fun c => !c.children.isEmpty)).reverse)
termination_by t => (itemSize t, 0)
decreasing_by
  rename_i pth dflag stt cs
  apply Prod.Lex.left
  have h1 := itemSizeList_filter_le (fun c => !c.children.isEmpty) cs
  have h2 : itemSizeList cs < itemSize (Item.mk n pth dflag stt cs) := by
    simp [itemSize]
  rw [itemSizeList_reverse]
  omega

def refList : List Item → List FPath
  | [] => []
  | c :: cs => refNode c ++ refList cs
termination_by l => (itemSizeList l, 1)
decreasing_by
  · rcases Nat.eq_zero_or_pos (itemSizeList ys) with h2 | h2
    · rw [itemSizeList_cons, h2]
      simp only [Nat.add_zero]
      exact Prod.Lex.right (itemSize y) (by omega)
    · apply Prod.Lex.left
      rw [itemSizeList_cons]
      omega
  · apply Prod.Lex.left
    rw [itemSizeList_cons]
    have := itemSize_pos y
    omega
end

/-- Reference description of the amended output on the whole model,
including the synthetic invisible root. -/
def checkedFilesRef (f : List Item) : List FPath :=
  refNode (Item.mk "" [] true .unchecked f)

mutual
/-- Modelled from the spec for comparison: the documented output order,
a directories-first depth-first traversal in row order collecting the
Checked File items only. -/
def specOrderItem : Item → List FPath
  | .mk _ p d st cs =>
    if d then specOrderList cs
    else if st = .checked then [p] else []
termination_by t => (itemSize t, 0)
decreasing_by
  apply Prod.Lex.left
  simp only [itemSize]
  omega

def specOrderList : List Item → List FPath
  | [] => []
  | c :: cs => specOrderItem c ++ specOrderList cs
termination_by l => (itemSizeList l, 1)
decreasing_by
  · rcases Nat.eq_zero_or_pos (itemSizeList ys) with h2 | h2
    · rw [itemSizeList_cons, h2]
      simp only [Nat.add_zero]
      exact Prod.Lex.right (itemSize y) (by omega)
    · apply Prod.Lex.left
      rw [itemSizeList_cons]
      omega
  · apply Prod.Lex.left
    rw [itemSizeList_cons]
    have := itemSize_pos y
    omega
end

def specOrderForest (f : List Item) : List FPath := specOrderList f

def c4exScan : List (String × ScanNode) :=
  [("D1", .dir [("a", .file)]), ("E", .dir []), ("c", .file)]

/-! ## String containment infrastructure -/
theorem pfxChars_iff (s : List Char) : ∀ l, pfxChars s l = true ↔ ∃ r, l = s ++ r := by
  induction s with
  | nil => intro l; simp [pfxChars]
  | cons a as ih =>
    intro l
    cases l with
    | nil => simp [pfxChars]
    | cons b bs =>
      simp only [pfxChars, Bool.and_eq_true, decide_eq_true_eq, ih bs,
        List.cons_append, List.cons.injEq]
      constructor
      · rintro ⟨rfl, r, rfl⟩; exact ⟨r, rfl, rfl⟩
      · rintro ⟨r, rfl, rfl⟩; exact ⟨rfl, r, rfl⟩

theorem hasSub_iff (s : List Char) : ∀ l, hasSub s l = true ↔ ∃ a b, l = a ++ s ++ b := by
  intro l
  induction l with
  | nil =>
    simp only [hasSub, pfxChars_iff]
    constructor
    · rintro ⟨r, hr⟩
      rcases List.append_eq_nil.mp hr.symm with ⟨h1, h2⟩
      exact ⟨[], [], by simp [h1]⟩
    · rintro ⟨a, b, h⟩
      rcases List.append_eq_nil.mp h.symm with ⟨h1, h2⟩
      rcases List.append_eq_nil.mp h1 with ⟨h3, h4⟩
      exact ⟨[], by simp [h4]⟩
  | cons c t ih =>
    simp only [hasSub, Bool.or_eq_true, pfxChars_iff, ih]
    constructor
    · rintro (⟨r, hr⟩ | ⟨a, b, hab⟩)
      · exact ⟨[], r, by simp [hr]⟩
      · exact ⟨c :: a, b, by simp [hab]⟩
    · rintro ⟨a, b, hab⟩
      cases a with
      | nil => exact Or.inl ⟨b, by simpa using hab⟩
      | cons a0 as =>
        right
        rcases List.cons.injEq .. ▸ hab with ⟨h1, h2⟩
        exact ⟨as, b, by simpa using h2⟩

theorem containsStr_iff (doc sub : String) :
    containsStr doc sub ↔ hasSub sub.data doc.data = true := by
  rw [hasSub_iff]
  constructor
  · rintro ⟨a, b, rfl⟩
    exact ⟨a.data, b.data, by simp⟩
  · rintro ⟨x, y, h⟩
    refine ⟨⟨x⟩, ⟨y⟩, String.ext ?_⟩
    simpa using h

theorem containsStr_mono {doc part sub : String}
    (h1 : containsStr doc part) (h2 : containsStr part sub) : containsStr doc sub := by
  rcases h1 with ⟨a, b, rfl⟩
  rcases h2 with ⟨c, d, rfl⟩
  exact ⟨a ++ c, d ++ b, by simp [String.append_assoc]⟩

theorem joinNL_contains {parts : List String} {x : String} (h : x ∈ parts) :
    containsStr (joinNL parts) x := by
  induction parts with
  | nil => cases h
  | cons p rest ih =>
    cases rest with
    | nil =>
      rcases List.mem_singleton.mp h with rfl
      exact ⟨"", "", by simp [joinNL]⟩
    | cons q qs =>
      rcases List.mem_cons.mp h with rfl | hmem
      · exact ⟨"", "\n" ++ joinNL (q :: qs), by simp [joinNL, String.append_assoc]⟩
      · rcases ih hmem with ⟨a, b, hab⟩
        exact ⟨p ++ "\n" ++ a, b, by simp [joinNL, hab, String.append_assoc]⟩

/-! ## Helper lemmas for the assembled document -/
theorem pathName_append_single (root : FPath) (x : String) :
    pathName (root ++ [x]) = x := by
  simp [pathName, List.getLastD_concat]

/-- Dropping list elements whose contribution is empty does not change
the flattened output. -/
theorem flatten_map_filter_of_nil {α : Type} (f : α → List String)
    (pred : α → Bool) (h : ∀ p, pred p = false → f p = []) :
    ∀ files : List α, (files.map f).flatten = ((files.filter pred).map f).flatten := by
  intro files
  induction files with
  | nil => rfl
  | cons p rest ih =>
    cases hp : pred p with
    | true => simp [List.filter_cons, hp, ih]
    | false => simp [List.filter_cons, hp, ih, h p hp]

/-- C9: the token estimate is the character count divided by four with
integer division; in particular a 400 character document estimates 100. -/
theorem c9_token_estimate (s : String) :
    estimate_token_count s = s.length / 4 ∧
    (s.length = 400 → estimate_token_count s = 100) := by
  have hbase : estimate_token_count s = s.length / 4 := by
    by_cases h : s = ""
    · subst h; simp [estimate_token_count]
    · simp [estimate_token_count, h]
  exact ⟨hbase, fun h400 => by rw [hbase, h400]⟩

theorem c9_token_estimate_witness :
    (String.mk (List.replicate 400 'a')).length = 400 ∧
    estimate_token_count (String.mk (List.replicate 400 'a')) = 100 :=
  ⟨by simp only [String.length_mk, List.length_replicate],
   (c9_token_estimate (String.mk (List.replicate 400 'a'))).2
     (by simp only [String.length_mk, List.length_replicate])⟩

/-- C6: a selected file that is the header file or the footer file of the
root is excluded from the per-file loop, so removing it from the selected
list does not change the assembled document; it is never emitted as a
code block. -/
theorem c6_header_footer_excluded (fs : FPath → FileData) (files : List FPath)
    (root : FPath) :
    build_context_string fs files root =
      build_context_string fs
        (files.filter (fun p =>
          decide (p ≠ root ++ [HEADER_FILENAME]) && decide (p ≠ root ++ [FOOTER_FILENAME])))
        root := by
  have hX : (files.map (filePart fs root)).flatten =
      ((files.filter (fun p =>
          decide (p ≠ root ++ [HEADER_FILENAME]) &&
          decide (p ≠ root ++ [FOOTER_FILENAME]))).map (filePart fs root)).flatten := by
    apply flatten_map_filter_of_nil
    intro p hp
    simp only [Bool.and_eq_false_iff, decide_eq_false_iff_not, not_not] at hp
    have hnm : pathName p = HEADER_FILENAME ∨ pathName p = FOOTER_FILENAME := by
      rcases hp with rfl | rfl
      · exact Or.inl (pathName_append_single ..)
      · exact Or.inr (pathName_append_single ..)
    simp [filePart, hnm]
  simp only [build_context_string, buildParts]
  rw [hX]

/-- C10: for a file that exists, has size between 1 and the limit, and
opens without permission or OS errors, the safe read returns the first
successful decode of the encoding loop; the final binary-fallback branch
is unreachable because the latin-1 attempt always succeeds. -/
theorem c10_latin1_fallback_unreachable (fd : FileData) (n : Nat)
    (hp : fd.present = true) (hs : fd.size = some n)
    (h1 : 1 ≤ n) (h2 : n ≤ MAX_FILE_SIZE_BYTES)
    (hperm : fd.perm = true) (hos : fd.osErr = none) :
    ∃ s, readLoop fd encodings_to_try = some s ∧ read_file_safe fd = s := by
  have hloop : ∃ s, readLoop fd encodings_to_try = some s := by
    simp only [encodings_to_try, readLoop, decodeAttempt]
    cases fd.utf8 with
    | some s => exact ⟨s, rfl⟩
    | none =>
      cases fd.utf8sig with
      | some s => exact ⟨s, rfl⟩
      | none => exact ⟨latin1Decode fd.bytes, rfl⟩
  rcases hloop with ⟨s, hsome⟩
  refine ⟨s, hsome, ?_⟩
  have hn0 : ¬ n = 0 := by omega
  have hngt : ¬ n > MAX_FILE_SIZE_BYTES := by omega
  simp [read_file_safe, hp, hs, hperm, hos, hsome, hn0, hngt]

theorem c10_latin1_fallback_unreachable_witness :
    ∃ s,
      readLoop ⟨true, true, some 2, [104, 105], true, none, none, none⟩ encodings_to_try
          = some s ∧
        read_file_safe ⟨true, true, some 2, [104, 105], true, none, none, none⟩ = s :=
  c10_latin1_fallback_unreachable _ 2 rfl rfl (by omega) (by simp [MAX_FILE_SIZE_BYTES]) rfl rfl

/-- C5 amended: a selected file whose read yields the empty string
contributes no heading and no code block (removing it from the list
leaves the document unchanged); a selected file that is present, whose
size exceeds the ceiling, and whose name is not the header or footer
file name contributes a placeholder containing the literal byte count.
The name restriction is forced: files named context_header.md or
context_footer.md are skipped by the per-file loop before the size check. -/
theorem c5_empty_and_oversized (fs : FPath → FileData) (files : List FPath)
    (root : FPath) (p : FPath) :
    (read_file_safe (fs p) = "" →
      build_context_string fs files root =
        build_context_string fs (files.filter (fun q => decide (q ≠ p))) root) ∧
    (p ∈ files →
      pathName p ≠ HEADER_FILENAME → pathName p ≠ FOOTER_FILENAME →
      (fs p).present = true →
      ∀ n, (fs p).size = some n → n > MAX_FILE_SIZE_BYTES →
      containsStr (build_context_string fs files root)
        ("[Error: File too large to include (" ++ toString n ++ " bytes)]")) := by
  constructor
  · intro hread
    have hX : (files.map (filePart fs root)).flatten =
        ((files.filter (fun q => decide (q ≠ p))).map (filePart fs root)).flatten := by
      apply flatten_map_filter_of_nil
      intro q hq
      simp only [decide_eq_false_iff_not, not_not] at hq
      subst hq
      by_cases hnm : pathName q = HEADER_FILENAME ∨ pathName q = FOOTER_FILENAME
      · simp [filePart, hnm]
      · simp [filePart, hnm, hread]
    simp only [build_context_string, buildParts]
    rw [hX]
  · intro hmem hnh hnf hpres n hsize hbig
    set placeholder :=
      "[Error: File too large to include (" ++ toString n ++ " bytes)]" with hph
    have hread : read_file_safe (fs p) = placeholder := by
      simp [read_file_safe, hpres, hsize, hbig]
    have hne : placeholder ≠ "" := by
      intro h
      have := congrArg String.data h
      simp [hph] at this
    have hpart : filePart fs root p =
        ["## File: " ++ get_relative_path_safe p root ++ "\n```" ++
          extensionTag (pathName p) ++ "\n" ++ placeholder ++ "\n```\n"] := by
      simp [filePart, hnh, hnf, hread, hne]
    have hmem2 : ("## File: " ++ get_relative_path_safe p root ++ "\n```" ++
        extensionTag (pathName p) ++ "\n" ++ placeholder ++ "\n```\n")
        ∈ buildParts fs files root := by
      simp only [buildParts]
      refine List.mem_append.mpr (Or.inl (List.mem_append.mpr (Or.inr ?_)))
      exact List.mem_flatten.mpr
        ⟨filePart fs root p, List.mem_map.mpr ⟨p, hmem, rfl⟩, by rw [hpart]; exact List.mem_singleton.mpr rfl⟩
    have hdoc := joinNL_contains hmem2
    refine containsStr_mono hdoc ?_
    exact ⟨"## File: " ++ get_relative_path_safe p root ++ "\n```" ++
      extensionTag (pathName p) ++ "\n", "\n```\n", rfl⟩

/-- C5 counterexample: the oversized file is selected, present, and over
the ceiling, yet the assembled document contains no placeholder with its
byte count, because the per-file loop skips files named
context_header.md before the size check. -/
theorem c5_counterexample :
    c5exFile ∈ [c5exFile] ∧
    (c5exFS c5exFile).present = true ∧
    (c5exFS c5exFile).size = some 2000000 ∧
    2000000 > MAX_FILE_SIZE_BYTES ∧
    ¬ containsStr (build_context_string c5exFS [c5exFile] c5exRoot)
        ("[Error: File too large to include (" ++ toString 2000000 ++ " bytes)]") := by
  refine ⟨List.mem_singleton.mpr rfl, by decide, by decide, by decide, ?_⟩
  rw [containsStr_iff]
  decide

theorem c5_empty_and_oversized_witness :
    (build_context_string c5wFS [c5wEmpty, c5wBig] c5wRoot =
      build_context_string c5wFS
        ([c5wEmpty, c5wBig].filter (fun q => decide (q ≠ c5wEmpty))) c5wRoot) ∧
    containsStr (build_context_string c5wFS [c5wEmpty, c5wBig] c5wRoot)
      ("[Error: File too large to include (" ++ toString 1500000 ++ " bytes)]") :=
  ⟨(c5_empty_and_oversized c5wFS [c5wEmpty, c5wBig] c5wRoot c5wEmpty).1 (by decide),
   (c5_empty_and_oversized c5wFS [c5wEmpty, c5wBig] c5wRoot c5wBig).2
     (by decide) (by decide) (by decide) (by decide) 1500000 (by decide) (by decide)⟩

/-! ## Scanner theorems -/
theorem scanEntries_visited_mono (excl : List String)
    (rec : Nat → List Nat → List (String × ScanNode) × List Nat)
    (hrec : ∀ cid v x, x ∈ v → x ∈ (rec cid v).2) :
    ∀ (es : List DirEntry) (v : List Nat) (x : Nat),
      x ∈ v → x ∈ (scanEntries excl rec es v).2 := by
  intro es
  induction es with
  | nil => intro v x hx; simpa [scanEntries] using hx
  | cons e es ih =>
    intro v x hx
    cases e with
    | dirE nm cid =>
      by_cases hex : nm ∈ excl
      · simpa [scanEntries, hex] using ih v x hx
      · simpa [scanEntries, hex] using ih _ x (hrec cid v x hx)
    | fileE nm => simpa [scanEntries] using ih v x hx
    | linkE nm b t => simpa [scanEntries] using ih v x hx

theorem recursive_scan_visited_mono (fs : ScanFS) (excl : List String) :
    ∀ (fuel d : Nat) (v : List Nat) (x : Nat),
      x ∈ v → x ∈ (recursive_scan fs excl fuel d v).2 := by
  intro fuel
  induction fuel with
  | zero => intro d v x hx; simpa [recursive_scan] using hx
  | succ fuel ih =>
    intro d v x hx
    by_cases hd : d ∈ v
    · simpa [recursive_scan, hd] using hx
    · simp only [recursive_scan, if_neg hd]
      exact scanEntries_visited_mono excl _ (fun cid w y hy => ih cid w y hy)
        (fs.entries d) (d :: v) x (List.mem_cons_of_mem _ hx)

/-- C3 counterexample: the code scan and the ancestor-path-scoped scan
described by the claim disagree on c3exFS: the code scans B as empty
because the guard set still holds the identity recorded while scanning
the sibling A, which is not an ancestor of B. -/
theorem c3_counterexample :
    (recursive_scan c3exFS [] 5 0 []).1 ≠ recursive_scan_ancestors c3exFS [] 5 0 [] := by
  intro h
  simp [recursive_scan, recursive_scan_ancestors, scanEntries, c3exFS] at h

/-- C3 amended: the guard set is global to the whole scan: it only ever
grows (every identity in the incoming set is still in the outgoing set),
a directory whose identity is already in the set is returned as empty
without descending, and on the concrete cyclic filesystem the scan is
independent of any fuel at least 3, terminating with the cyclic branch
scanned as empty. -/
theorem c3_global_guard_amended :
    (∀ (fs : ScanFS) (excl : List String) (fuel d : Nat) (v : List Nat) (x : Nat),
        x ∈ v → x ∈ (recursive_scan fs excl fuel d v).2) ∧
    (∀ (fs : ScanFS) (excl : List String) (fuel d : Nat) (v : List Nat),
        d ∈ v → recursive_scan fs excl (fuel + 1) d v = ([], v)) ∧
    (∀ n : Nat, recursive_scan c3cycleFS [] (n + 3) 0 [] =
        ([("sub", ScanNode.dir [("back", ScanNode.dir []), ("g", ScanNode.file)])],
          [1, 0])) := by
  refine ⟨fun fs excl fuel d v x hx => recursive_scan_visited_mono fs excl fuel d v x hx,
    fun fs excl fuel d v hd => by simp [recursive_scan, hd], fun n => ?_⟩
  rfl

theorem c3_global_guard_amended_witness :
    0 ∈ (recursive_scan c3exFS [] 5 0 [0]).2 ∧
    recursive_scan c3exFS [] 5 7 [7] = ([], [7]) :=
  ⟨c3_global_guard_amended.1 c3exFS [] 5 0 [0] 0 (List.mem_singleton.mpr rfl),
   c3_global_guard_amended.2.1 c3exFS [] 4 7 [7] (List.mem_singleton.mpr rfl)⟩

/-- C7 amended: the per-entry loop classifies entries by their unresolved
type: the names in a directory scan are exactly the names of its real
subdirectories not in the exclusion set and of its real files, in listing
order; symbolic link entries, whatever they resolve to, are omitted. -/
theorem c7_unresolved_classification_amended (excl : List String)
    (rec : Nat → List Nat → List (String × ScanNode) × List Nat) :
    ∀ (es : List DirEntry) (v : List Nat),
      (scanEntries excl rec es v).1.map Prod.fst =
        es.filterMap (fun e =>
          match e with
          | .dirE nm _ => if nm ∈ excl then none else some nm
          | .fileE nm => some nm
          | .linkE _ _ _ => none) := by
  intro es
  induction es with
  | nil => intro v; rfl
  | cons e es ih =>
    intro v
    cases e with
    | dirE nm cid =>
      by_cases hex : nm ∈ excl
      · simp [scanEntries, hex, ih]
      · simp [scanEntries, hex, ih]
    | fileE nm => simp [scanEntries, ih]
    | linkE nm b t => simp [scanEntries, ih]

/-- C7 counterexample: the code omits the symlink entirely (both is_dir
and is_file are queried with follow_symlinks set to false), while the
resolved-type classification stated by the claim would keep it as a
file leaf. -/
theorem c7_counterexample :
    (recursive_scan c7exFS [] 3 0 []).1 ≠ (recursive_scan_resolved c7exFS [] 3 0 []).1 := by
  intro h
  simp [recursive_scan, recursive_scan_resolved, scanEntries, scanEntriesResolved, c7exFS] at h

/-- C8: construction fails with the invalid-root error exactly when the
root does not exist or is not a directory, and the check consults only
those two facts about the root: any filesystem agreeing on them yields
the identical result, so no traversal is involved. -/
theorem c8_invalid_root_eager (v : FSView) (root : FPath) :
    ((∃ e, file_scanner_init v root = .error e) ↔
      (v.pexists root = false ∨ v.pisDir root = false)) ∧
    (∀ w : FSView, v.pexists root = w.pexists root → v.pisDir root = w.pisDir root →
      file_scanner_init v root = file_scanner_init w root) := by
  constructor
  · cases hE : v.pexists root <;> cases hD : v.pisDir root <;>
      simp [file_scanner_init, hE, hD]
  · intro w h1 h2
    simp only [file_scanner_init, ← h1, ← h2]

theorem c8_invalid_root_eager_witness :
    ∃ e, file_scanner_init c8exView ["x"] = Except.error e :=
  (c8_invalid_root_eager c8exView ["x"]).1.mpr (Or.inl rfl)

theorem itemInd {motive : Item → Prop}
    (h : ∀ n p d s cs, (∀ c ∈ cs, motive c) → motive (.mk n p d s cs)) :
    ∀ t, motive t
  | .mk n p d s cs => h n p d s cs (fun c _hc => itemInd h c)
termination_by t => sizeOf t
decreasing_by
  have h1 := List.sizeOf_lt_of_mem _hc
  simp only [Item.mk.sizeOf_spec]
  omega

/-! ## Tree lemmas -/
theorem set_of_getElem? {α : Type} :
    ∀ (l : List α) (i : Nat) (a : α), l[i]? = some a → l.set i a = l := by
  intro l
  induction l with
  | nil => intro i a h; simp at h
  | cons x xs ih =>
    intro i a h
    cases i with
    | zero => simp at h; simp [h]
    | succ j =>
      simp only [List.getElem?_cons_succ] at h
      simp [List.set_cons_succ, ih j a h]

theorem recomputeOf_eq_checked (sts : List CState) :
    recomputeOf sts = .checked ↔ ∀ s ∈ sts, s = .checked := by
  constructor
  · intro h s hs
    unfold recomputeOf at h
    split at h
    · next hc => simpa using List.countP_eq_length.mp hc s hs
    · next hc => split at h <;> simp_all
  · intro h
    have hc : sts.countP (fun s => decide (s = .checked)) = sts.length :=
      List.countP_eq_length.mpr (fun a ha => by simpa using h a ha)
    simp [recomputeOf, hc]

theorem recomputeOf_eq_unchecked (sts : List CState) :
    recomputeOf sts = .unchecked ↔ (sts ≠ [] ∧ ∀ s ∈ sts, s = .unchecked) := by
  constructor
  · intro h
    unfold recomputeOf at h
    split at h
    · next hc => simp_all
    · next hc =>
      split at h
      · simp_all
      · next hcp =>
        simp only [not_or, Nat.not_lt, Nat.le_zero] at hcp
        obtain ⟨hc0, hp0⟩ := hcp
        constructor
        · intro hnil
          subst hnil
          simp at hc
        · intro s hs
          have h1 := List.countP_eq_zero.mp hc0 s hs
          have h2 := List.countP_eq_zero.mp hp0 s hs
          simp only [decide_eq_true_eq] at h1 h2
          cases s with
          | unchecked => rfl
          | checked => exact absurd rfl h1
          | mixed => exact absurd rfl h2
  · rintro ⟨hne, h⟩
    have hc : sts.countP (fun s => decide (s = .checked)) = 0 :=
      List.countP_eq_zero.mpr (fun a ha => by simp [h a ha])
    have hp : sts.countP (fun s => decide (s = .mixed)) = 0 :=
      List.countP_eq_zero.mpr (fun a ha => by simp [h a ha])
    have hlen : sts.length ≠ 0 := fun h0 => hne (List.eq_nil_of_length_eq_zero h0)
    simp [recomputeOf, hc, hp, hlen]
    omega

theorem recomputeOf_const {s : CState} (hs : s = .checked ∨ s = .unchecked)
    (sts : List CState) (h : ∀ x ∈ sts, x = s) (hne : sts ≠ []) :
    recomputeOf sts = s := by
  rcases hs with rfl | rfl
  · exact (recomputeOf_eq_checked sts).mpr h
  · exact (recomputeOf_eq_unchecked sts).mpr ⟨hne, h⟩

/-! ### Bridges from the mutual list functions to standard list combinators -/
theorem setAllList_eq_map (s : CState) : ∀ cs, setAllList s cs = cs.map (setAllState s) := by
  intro cs
  induction cs with
  | nil => simp [setAllList]
  | cons c cs ih => simp [setAllList, ih]

theorem allStateList_eq_all (s : CState) : ∀ cs, allStateList s cs = cs.all (allStateB s) := by
  intro cs
  induction cs with
  | nil => simp [allStateList]
  | cons c cs ih => simp [allStateList, ih]

theorem wfList_eq_all : ∀ cs, wfList cs = cs.all wfB := by
  intro cs
  induction cs with
  | nil => simp [wfList]
  | cons c cs ih => simp [wfList, ih]

theorem noEmptyList_eq_all : ∀ cs, noEmptyList cs = cs.all noEmptyB := by
  intro cs
  induction cs with
  | nil => simp [noEmptyList]
  | cons c cs ih => simp [noEmptyList, ih]

theorem invList_eq_all : ∀ cs, invList cs = cs.all invB := by
  intro cs
  induction cs with
  | nil => simp [invList]
  | cons c cs ih => simp [invList, ih]

theorem claimInvList_eq_all : ∀ cs, claimInvList cs = cs.all claimInvB := by
  intro cs
  induction cs with
  | nil => simp [claimInvList]
  | cons c cs ih => simp [claimInvList, ih]

theorem leafStatesList_eq_flatten : ∀ cs, leafStatesList cs = (cs.map leafStates).flatten := by
  intro cs
  induction cs with
  | nil => simp [leafStatesList]
  | cons c cs ih => simp [leafStatesList, ih]

theorem buildList_eq_map (cur : FPath) :
    ∀ es, buildList cur es = es.map (fun pr => buildItem cur pr.1 pr.2) := by
  intro es
  induction es with
  | nil => simp [buildList]
  | cons e es ih => cases e; simp [buildList, ih]

/-! ### setAllState lemmas -/
theorem setAllState_state (s : CState) (t : Item) : (setAllState s t).state = s := by
  cases t; simp [setAllState, Item.state]

theorem setAllState_isDir (s : CState) (t : Item) : (setAllState s t).isDir = t.isDir := by
  cases t; simp [setAllState, Item.isDir]

theorem setAllState_children (s : CState) (t : Item) :
    (setAllState s t).children = t.children.map (setAllState s) := by
  cases t; simp [setAllState, Item.children, setAllList_eq_map]

theorem allStateB_setAllState (s : CState) :
    ∀ t, allStateB s (setAllState s t) = true := by
  intro t
  induction t using itemInd with
  | h n p d st cs ih =>
    simp [setAllState, allStateB, setAllList_eq_map, allStateList_eq_all,
      List.all_map, List.all_eq_true, Function.comp]
    exact fun c hc => ih c hc

theorem setAllState_of_allState (s0 : CState) :
    ∀ t, allStateB s0 t = true → ∀ s, setAllState s0 (setAllState s t) = t := by
  intro t
  induction t using itemInd with
  | h n p d st cs ih =>
    intro hall s
    simp only [allStateB, allStateList_eq_all, Bool.and_eq_true, decide_eq_true_eq,
      List.all_eq_true] at hall
    obtain ⟨hst, hcs⟩ := hall
    subst hst
    simp only [setAllState, setAllList_eq_map, List.map_map]
    have hmap : cs.map (setAllState st ∘ setAllState s) = cs := by
      have h1 : cs.map (setAllState st ∘ setAllState s) = cs.map id := by
        apply List.map_congr_left
        intro c hc
        simpa using ih c hc (hcs c hc) s
      rw [h1, List.map_id]
    rw [hmap]

theorem state_of_allStateB {s : CState} {t : Item} (h : allStateB s t = true) :
    t.state = s := by
  cases t with
  | mk n p d st cs =>
    simp only [allStateB, Bool.and_eq_true, decide_eq_true_eq] at h
    exact h.1

theorem wfB_setAllState (s : CState) :
    ∀ t, wfB t = true → wfB (setAllState s t) = true := by
  intro t
  induction t using itemInd with
  | h n p d st cs ih =>
    intro hwf
    simp only [wfB, wfList_eq_all, Bool.and_eq_true, List.all_eq_true,
      Bool.or_eq_true, List.isEmpty_eq_true] at hwf
    obtain ⟨hd, hcs⟩ := hwf
    simp only [setAllState, setAllList_eq_map, wfB, wfList_eq_all, Bool.and_eq_true,
      List.all_eq_true, Bool.or_eq_true, List.isEmpty_eq_true, List.all_map]
    constructor
    · rcases hd with hd | hd
      · exact Or.inl hd
      · exact Or.inr (by simp [hd])
    · intro c hc
      simpa using ih c hc (hcs c hc)

theorem noEmptyB_setAllState (s : CState) :
    ∀ t, noEmptyB t = true → noEmptyB (setAllState s t) = true := by
  intro t
  induction t using itemInd with
  | h n p d st cs ih =>
    intro hne
    simp only [noEmptyB, noEmptyList_eq_all, Bool.and_eq_true, List.all_eq_true,
      Bool.or_eq_true, List.isEmpty_eq_true, Bool.not_eq_true'] at hne
    obtain ⟨hd, hcs⟩ := hne
    simp only [setAllState, setAllList_eq_map, noEmptyB, noEmptyList_eq_all,
      Bool.and_eq_true, List.all_eq_true, Bool.or_eq_true, List.isEmpty_eq_true,
      Bool.not_eq_true', List.all_map]
    constructor
    · rcases hd with hd | hd
      · exact Or.inl hd
      · right
        simp only [List.isEmpty_eq_false] at hd ⊢
        simpa using hd
    · intro c hc
      simpa using ih c hc (hcs c hc)

theorem invB_of_allState {s : CState} (hs : s = .checked ∨ s = .unchecked) :
    ∀ t, allStateB s t = true → invB t = true := by
  intro t
  induction t using itemInd with
  | h n p d st cs ih =>
    intro hall
    simp only [allStateB, allStateList_eq_all, Bool.and_eq_true, decide_eq_true_eq,
      List.all_eq_true] at hall
    obtain ⟨hst, hcs⟩ := hall
    simp only [invB, invList_eq_all, Bool.and_eq_true, List.all_eq_true]
    constructor
    · by_cases hemp : cs = []
      · subst hemp
        simp only [List.isEmpty_nil, if_true, decide_eq_true_eq]
        subst hst
        rcases hs with rfl | rfl <;> simp
      · have hne : cs.isEmpty = false := by simpa [List.isEmpty_eq_false] using hemp
        simp only [hne, Bool.false_eq_true, if_false, decide_eq_true_eq]
        subst hst
        apply Eq.symm
        apply recomputeOf_const hs
        · intro x hx
          rcases List.mem_map.mp hx with ⟨c, hc, rfl⟩
          exact state_of_allStateB (hcs c hc)
        · simpa [statesOf] using hemp
    · intro c hc
      exact ih c hc (hcs c hc)

theorem allState_unchecked_of_inv :
    ∀ t, invB t = true → t.state = .unchecked → allStateB .unchecked t = true := by
  intro t
  induction t using itemInd with
  | h n p d st cs ih =>
    intro hinv hst
    simp only [Item.state] at hst
    subst hst
    simp only [invB, invList_eq_all, Bool.and_eq_true, List.all_eq_true] at hinv
    obtain ⟨hbranch, hcs⟩ := hinv
    simp only [allStateB, allStateList_eq_all, Bool.and_eq_true, decide_eq_true_eq,
      List.all_eq_true]
    refine ⟨by trivial, ?_⟩
    by_cases hemp : cs = []
    · subst hemp; intro c hc; cases hc
    · have hne : cs.isEmpty = false := by simpa [List.isEmpty_eq_false] using hemp
      simp only [hne, Bool.false_eq_true, if_false, decide_eq_true_eq] at hbranch
      have hrc := (recomputeOf_eq_unchecked (statesOf cs)).mp hbranch.symm
      intro c hc
      apply ih c hc (hcs c hc)
      exact hrc.2 c.state (List.mem_map.mpr ⟨c, hc, rfl⟩)

theorem invB_mk_iff (n : String) (p : FPath) (d : Bool) (st : CState) (cs : List Item) :
    invB (.mk n p d st cs) = true ↔
      ((cs = [] → st ≠ .mixed) ∧ (cs ≠ [] → st = recomputeOf (statesOf cs)) ∧
        ∀ c ∈ cs, invB c = true) := by
  by_cases h : cs = []
  · subst h
    simp [invB, invList_eq_all]
  · have hne : cs.isEmpty = false := by simpa [List.isEmpty_eq_false] using h
    simp [invB, hne, invList_eq_all, List.all_eq_true, h]

theorem statesOf_set (cs : List Item) (i : Nat) (x : Item) :
    statesOf (cs.set i x) = (statesOf cs).set i x.state := by
  simp [statesOf, List.map_set]

theorem statesOf_set_same {cs : List Item} {i : Nat} {c x : Item}
    (hget : cs[i]? = some c) (hstate : x.state = c.state) :
    statesOf (cs.set i x) = statesOf cs := by
  rw [statesOf_set, hstate]
  apply set_of_getElem?
  simp [statesOf, List.getElem?_map, hget]

theorem toggleAux_spec {s : CState} (hs : s = .checked ∨ s = .unchecked) :
    ∀ (p : List Nat) (t : Item), invB t = true →
      invB (toggleAux s p t).1 = true ∧
      ((toggleAux s p t).2 = false → (toggleAux s p t).1.state = t.state) := by
  intro p
  induction p with
  | nil =>
    intro t hinv
    refine ⟨?_, ?_⟩
    · simpa [toggleAux] using invB_of_allState hs _ (allStateB_setAllState s t)
    · intro hfalse
      simp [toggleAux] at hfalse
  | cons i rest ih =>
    intro t hinv
    cases t with
    | mk n p0 d st cs =>
      rw [invB_mk_iff] at hinv
      obtain ⟨hmix, hrec, hchildren⟩ := hinv
      cases hget : cs[i]? with
      | none =>
        simp only [toggleAux, hget]
        exact ⟨by rw [invB_mk_iff]; exact ⟨hmix, hrec, hchildren⟩, by simp⟩
      | some c =>
        have hmemc : c ∈ cs := List.getElem?_mem hget
        have hcsne : cs ≠ [] := by
          intro h0
          rw [h0] at hget
          simp at hget
        obtain ⟨hinv1, hflag1⟩ := ih c (hchildren c hmemc)
        have hchild1 : ∀ x ∈ cs.set i (toggleAux s rest c).1, invB x = true := by
          intro x hx
          rcases List.mem_or_eq_of_mem_set hx with hx | rfl
          · exact hchildren x hx
          · exact hinv1
        have hset_ne : cs.set i (toggleAux s rest c).1 ≠ [] := by
          intro h0
          have := congrArg List.length h0
          simp at this
          exact hcsne this
        simp only [toggleAux, hget]
        cases hr2 : (toggleAux s rest c).2 with
        | false =>
          simp only [hr2, Bool.false_eq_true, if_false]
          have hstc : (toggleAux s rest c).1.state = c.state := hflag1 hr2
          have hstates : statesOf (cs.set i (toggleAux s rest c).1) = statesOf cs :=
            statesOf_set_same hget hstc
          refine ⟨?_, fun _ => rfl⟩
          rw [invB_mk_iff]
          refine ⟨fun h0 => absurd h0 hset_ne, fun _ => ?_, hchild1⟩
          rw [hstates]
          exact hrec hcsne
        | true =>
          simp only [hr2, if_true]
          by_cases hns : recomputeOf (statesOf (cs.set i (toggleAux s rest c).1)) = st
          · simp only [hns, if_true]
            refine ⟨?_, fun _ => rfl⟩
            rw [invB_mk_iff]
            exact ⟨fun h0 => absurd h0 hset_ne, fun _ => hns.symm, hchild1⟩
          · simp only [hns, if_false]
            refine ⟨?_, ?_⟩
            · rw [invB_mk_iff]
              exact ⟨fun h0 => absurd h0 hset_ne, fun _ => rfl, hchild1⟩
            · intro hfalse
              simp at hfalse

theorem wfB_mk_iff (n : String) (p : FPath) (d : Bool) (st : CState) (cs : List Item) :
    wfB (.mk n p d st cs) = true ↔
      ((d = true ∨ cs = []) ∧ ∀ c ∈ cs, wfB c = true) := by
  simp [wfB, wfList_eq_all, List.all_eq_true]

theorem noEmptyB_mk_iff (n : String) (p : FPath) (d : Bool) (st : CState) (cs : List Item) :
    noEmptyB (.mk n p d st cs) = true ↔
      ((d = false ∨ cs ≠ []) ∧ ∀ c ∈ cs, noEmptyB c = true) := by
  simp [noEmptyB, noEmptyList_eq_all, List.all_eq_true, Bool.not_eq_true',
    List.isEmpty_eq_false, Bool.not_eq_true]

theorem toggleAux_wf (s : CState) :
    ∀ (p : List Nat) (t : Item), wfB t = true → wfB (toggleAux s p t).1 = true := by
  intro p
  induction p with
  | nil =>
    intro t hwf
    simpa [toggleAux] using wfB_setAllState s t hwf
  | cons i rest ih =>
    intro t hwf
    cases t with
    | mk n p0 d st cs =>
      rw [wfB_mk_iff] at hwf
      obtain ⟨hd, hcs⟩ := hwf
      cases hget : cs[i]? with
      | none =>
        simp only [toggleAux, hget]
        rw [wfB_mk_iff]
        exact ⟨hd, hcs⟩
      | some c =>
        have hchild : ∀ x ∈ cs.set i (toggleAux s rest c).1, wfB x = true := by
          intro x hx
          rcases List.mem_or_eq_of_mem_set hx with hx | rfl
          · exact hcs x hx
          · exact ih c (hcs c (List.getElem?_mem hget))
        have hd' : d = true ∨ cs.set i (toggleAux s rest c).1 = [] := by
          rcases hd with hd | hd
          · exact Or.inl hd
          · exact Or.inr (by simp [hd])
        simp only [toggleAux, hget]
        cases hr2 : (toggleAux s rest c).2 with
        | false =>
          simp only [hr2, Bool.false_eq_true, if_false]
          rw [wfB_mk_iff]; exact ⟨hd', hchild⟩
        | true =>
          simp only [hr2, if_true]
          by_cases hns : recomputeOf (statesOf (cs.set i (toggleAux s rest c).1)) = st <;>
            simp only [hns, if_true, if_false] <;>
            (rw [wfB_mk_iff]; exact ⟨hd', hchild⟩)

theorem toggleAux_noEmpty (s : CState) :
    ∀ (p : List Nat) (t : Item), noEmptyB t = true → noEmptyB (toggleAux s p t).1 = true := by
  intro p
  induction p with
  | nil =>
    intro t hne
    simpa [toggleAux] using noEmptyB_setAllState s t hne
  | cons i rest ih =>
    intro t hne
    cases t with
    | mk n p0 d st cs =>
      rw [noEmptyB_mk_iff] at hne
      obtain ⟨hd, hcs⟩ := hne
      cases hget : cs[i]? with
      | none =>
        simp only [toggleAux, hget]
        rw [noEmptyB_mk_iff]
        exact ⟨hd, hcs⟩
      | some c =>
        have hchild : ∀ x ∈ cs.set i (toggleAux s rest c).1, noEmptyB x = true := by
          intro x hx
          rcases List.mem_or_eq_of_mem_set hx with hx | rfl
          · exact hcs x hx
          · exact ih c (hcs c (List.getElem?_mem hget))
        have hd' : d = false ∨ cs.set i (toggleAux s rest c).1 ≠ [] := by
          rcases hd with hd | hd
          · exact Or.inl hd
          · refine Or.inr ?_
            intro h0
            have := congrArg List.length h0
            simp at this
            exact hd this
        simp only [toggleAux, hget]
        cases hr2 : (toggleAux s rest c).2 with
        | false =>
          simp only [hr2, Bool.false_eq_true, if_false]
          rw [noEmptyB_mk_iff]; exact ⟨hd', hchild⟩
        | true =>
          simp only [hr2, if_true]
          by_cases hns : recomputeOf (statesOf (cs.set i (toggleAux s rest c).1)) = st <;>
            simp only [hns, if_true, if_false] <;>
            (rw [noEmptyB_mk_iff]; exact ⟨hd', hchild⟩)

theorem toggleForest_all {P : Item → Bool} {s : CState}
    (hP : ∀ p t, P t = true → P (toggleAux s p t).1 = true) :
    ∀ (f : List Item) (p : List Nat), (∀ t ∈ f, P t = true) →
      ∀ t ∈ toggleForest s f p, P t = true := by
  intro f p hf
  cases p with
  | nil => simpa [toggleForest] using hf
  | cons i rest =>
    cases hget : f[i]? with
    | none => simpa [toggleForest, hget] using hf
    | some t0 =>
      simp only [toggleForest, hget]
      intro t ht
      rcases List.mem_or_eq_of_mem_set ht with ht | rfl
      · exact hf t ht
      · exact hP rest t0 (hf t0 (List.getElem?_mem hget))

theorem applyToggles_all {P : Item → Bool}
    (hP : ∀ s : CState, (s = .checked ∨ s = .unchecked) →
      ∀ (p : List Nat) (t : Item), P t = true → P (toggleAux s p t).1 = true) :
    ∀ (l : List (List Nat × Bool)) (f : List Item),
      (∀ t ∈ f, P t = true) → ∀ t ∈ applyToggles f l, P t = true := by
  intro l
  induction l with
  | nil => intro f hf; simpa [applyToggles] using hf
  | cons pr l ih =>
    intro f hf
    have hstep : applyToggles f (pr :: l) =
        applyToggles (toggleForest (if pr.2 then CState.checked else CState.unchecked) f pr.1) l := by
      simp [applyToggles]
    rw [hstep]
    refine ih _ (toggleForest_all (fun p t ht => ?_) f pr.1 hf)
    exact hP _ (by cases pr.2 <;> simp) p t ht

theorem scanNodeInd {motive : ScanNode → Prop} (hf : motive .file)
    (hd : ∀ es, (∀ pr ∈ es, motive pr.2) → motive (.dir es)) : ∀ sn, motive sn
  | .file => hf
  | .dir es => hd es (fun pr _hpr => scanNodeInd hf hd pr.2)
termination_by sn => sizeOf sn
decreasing_by
  have h1 := List.sizeOf_lt_of_mem _hpr
  cases pr with
  | mk a b =>
    simp only [Prod.mk.sizeOf_spec] at h1
    simp only [ScanNode.dir.sizeOf_spec]
    omega

theorem mem_insertItem (x : Item) : ∀ (l : List Item) (a : Item),
    a ∈ insertItem x l ↔ a = x ∨ a ∈ l := by
  intro l
  induction l with
  | nil => intro a; simp [insertItem]
  | cons y ys ih =>
    intro a
    cases hle : itemLe y x with
    | true =>
      simp only [insertItem, hle, if_true, List.mem_cons, ih]
      tauto
    | false =>
      simp [insertItem, hle, List.mem_cons]

theorem mem_sortItems (l : List Item) (a : Item) : a ∈ sortItems l ↔ a ∈ l := by
  have H : ∀ (l acc : List Item) (a : Item),
      a ∈ l.foldl (fun acc x => insertItem x acc) acc ↔ a ∈ acc ∨ a ∈ l := by
    intro l
    induction l with
    | nil => intro acc a; simp
    | cons x xs ih =>
      intro acc a
      simp only [List.foldl_cons, ih, mem_insertItem, List.mem_cons]
      tauto
  have h0 := H l [] a
  simp only [List.not_mem_nil, false_or] at h0
  rw [sortItems]
  exact h0

theorem buildItem_unchecked_wf : ∀ (sn : ScanNode) (cur : FPath) (nm : String),
    allStateB .unchecked (buildItem cur nm sn) = true ∧
      wfB (buildItem cur nm sn) = true := by
  intro sn
  induction sn using scanNodeInd with
  | hf =>
    intro cur nm
    constructor
    · simp [buildItem, allStateB, allStateList_eq_all]
    · simp [buildItem, wfB, wfList_eq_all]
  | hd es ih =>
    intro cur nm
    have hmem : ∀ c ∈ sortItems (buildList (cur ++ [nm]) es),
        allStateB .unchecked c = true ∧ wfB c = true := by
      intro c hc
      rw [mem_sortItems, buildList_eq_map] at hc
      rcases List.mem_map.mp hc with ⟨pr, hpr, rfl⟩
      exact ih pr hpr (cur ++ [nm]) pr.1
    constructor
    · simp only [buildItem, allStateB, allStateList_eq_all, Bool.and_eq_true,
        decide_eq_true_eq, List.all_eq_true]
      exact ⟨by trivial, fun c hc => (hmem c hc).1⟩
    · rw [buildItem, wfB_mk_iff]
      exact ⟨Or.inl rfl, fun c hc => (hmem c hc).2⟩

theorem populate_unchecked_wf (sd : List (String × ScanNode)) (rp : FPath) :
    ∀ t ∈ populate sd rp, allStateB .unchecked t = true ∧ wfB t = true := by
  intro t ht
  rw [populate, mem_sortItems, buildList_eq_map] at ht
  rcases List.mem_map.mp ht with ⟨pr, hpr, rfl⟩
  exact buildItem_unchecked_wf pr.2 rp pr.1

theorem reachable_inv {f : List Item} (hre : Reachable f) :
    ∀ t ∈ f, invB t = true := by
  rcases hre with ⟨sd, rp, toggles, rfl⟩
  refine applyToggles_all (fun s hs p t ht => (toggleAux_spec hs p t ht).1) toggles
    (populate sd rp) (fun t ht => ?_)
  exact invB_of_allState (Or.inr rfl) t (populate_unchecked_wf sd rp t ht).1

theorem beq_of_iff {P : Prop} [Decidable P] {b : Bool} (h : P ↔ b = true) :
    (decide P == b) = true := by
  cases b with
  | true => simp [h.mpr rfl]
  | false =>
    have : ¬ P := fun hp => by simpa using h.mp hp
    simp [this]

theorem mixed_beq_of_two (st : CState) (A B : Bool)
    (hA : (decide (st = .checked) == A) = true)
    (hB : (decide (st = .unchecked) == B) = true) :
    (decide (st = .mixed) == (!A && !B)) = true := by
  cases st <;> cases A <;> cases B <;> simp_all

theorem statesOf_forall (cs : List Item) (P : CState → Prop) :
    (∀ x ∈ statesOf cs, P x) ↔ ∀ c ∈ cs, P c.state := by
  simp [statesOf]

theorem leafStatesList_all (P : CState → Bool) : ∀ cs : List Item,
    (leafStatesList cs).all P = cs.all (fun c => (leafStates c).all P) := by
  intro cs
  induction cs with
  | nil => simp [leafStatesList]
  | cons c cs ih => simp [leafStatesList, ih]

theorem claim_of_inv : ∀ t : Item, invB t = true → wfB t = true → noEmptyB t = true →
    claimInvB t = true ∧ leafStates t ≠ [] ∧
    (t.state = .checked ↔ (leafStates t).all (fun s => decide (s = .checked)) = true) ∧
    (t.state = .unchecked ↔ (leafStates t).all (fun s => !decide (s = .checked)) = true) := by
  intro t
  induction t using itemInd with
  | h n p0 d st cs ih =>
    intro hinv hwf hne
    rw [invB_mk_iff] at hinv
    obtain ⟨hmix0, hrec, hchi⟩ := hinv
    rw [wfB_mk_iff] at hwf
    obtain ⟨hwfd, hwfc⟩ := hwf
    rw [noEmptyB_mk_iff] at hne
    obtain ⟨hned, hnec⟩ := hne
    have ihall := fun c hc => ih c hc (hchi c hc) (hwfc c hc) (hnec c hc)
    cases d with
    | false =>
      have hcs0 : cs = [] := by
        rcases hwfd with h1 | h1
        · cases h1
        · exact h1
      subst hcs0
      have hmix : st ≠ .mixed := hmix0 rfl
      refine ⟨?_, ?_, ?_, ?_⟩
      · simp [claimInvB, claimInvList]
      · simp [leafStates, leafStatesList]
      · simp only [Item.state, leafStates, Bool.false_eq_true, if_false, List.all_cons,
          List.all_nil, Bool.and_true, decide_eq_true_eq]
      · simp only [Item.state, leafStates, Bool.false_eq_true, if_false, List.all_cons,
          List.all_nil, Bool.and_true, Bool.not_eq_true', decide_eq_false_iff_not]
        constructor
        · intro h1; rw [h1]; intro h2; cases h2
        · intro h1
          cases st with
          | unchecked => rfl
          | checked => exact absurd rfl h1
          | mixed => exact absurd rfl hmix
    | true =>
      have hcsne : cs ≠ [] := by
        rcases hned with h1 | h1
        · cases h1
        · exact h1
      have hst : st = recomputeOf (statesOf cs) := hrec hcsne
      have hiff1 : st = .checked ↔
          (leafStatesList cs).all (fun s => decide (s = .checked)) = true := by
        rw [hst, recomputeOf_eq_checked, statesOf_forall,
          leafStatesList_all, List.all_eq_true]
        constructor
        · intro h1 c hc
          exact ((ihall c hc).2.2.1).mp (h1 c hc)
        · intro h1 c hc
          exact ((ihall c hc).2.2.1).mpr (h1 c hc)
      have hiff2 : st = .unchecked ↔
          (leafStatesList cs).all (fun s => !decide (s = .checked)) = true := by
        rw [hst, recomputeOf_eq_unchecked, leafStatesList_all, List.all_eq_true]
        constructor
        · intro h1 c hc
          exact ((ihall c hc).2.2.2).mp (h1.2 c.state (List.mem_map.mpr ⟨c, hc, rfl⟩))
        · intro h1
          refine ⟨by simpa [statesOf] using hcsne, ?_⟩
          rw [statesOf_forall]
          intro c hc
          exact ((ihall c hc).2.2.2).mpr (h1 c hc)
      have hlne : leafStatesList cs ≠ [] := by
        cases cs with
        | nil => exact absurd rfl hcsne
        | cons c0 rest =>
          have h0 : leafStates c0 ≠ [] := (ihall c0 (List.mem_cons_self c0 rest)).2.1
          rw [leafStatesList]
          intro hb
          rcases List.append_eq_nil.mp hb with ⟨h1, _⟩
          exact h0 h1
      refine ⟨?_, by simpa [leafStates] using hlne, by simpa [Item.state, leafStates] using hiff1,
        by simpa [Item.state, leafStates] using hiff2⟩
      have hcomp1 := beq_of_iff hiff1
      have hcomp2 := beq_of_iff hiff2
      have hcomp3 := mixed_beq_of_two st _ _ hcomp1 hcomp2
      simp only [claimInvB, claimInvList_eq_all, if_true, Bool.and_eq_true, List.all_eq_true]
      exact ⟨⟨⟨hcomp1, hcomp2⟩, hcomp3⟩, fun c hc => (ihall c hc).1⟩

/-- C1 amended: for every tree built from a scan result in which every
directory item has at least one child (so every directory has at least
one descendant File leaf), after every finite sequence of user toggles
each directory item is Checked iff all of its descendant File leaves are
Checked, Unchecked iff none is, and Partial otherwise.  The restriction
is forced: an empty directory has no descendant leaves, so both
vacuous conditions hold while its state is a single value. -/
theorem c1_tri_state_invariant_amended (sd : List (String × ScanNode)) (rp : FPath)
    (hne : ∀ t ∈ populate sd rp, noEmptyB t = true) :
    ∀ toggles : List (List Nat × Bool),
      ∀ t ∈ applyToggles (populate sd rp) toggles, claimInvB t = true := by
  intro toggles t ht
  have hinv : invB t = true :=
    applyToggles_all (fun s hs p t ht => (toggleAux_spec hs p t ht).1) toggles _
      (fun t ht => invB_of_allState (Or.inr rfl) t (populate_unchecked_wf sd rp t ht).1) t ht
  have hwf : wfB t = true :=
    applyToggles_all (fun s _ p t ht => toggleAux_wf s p t ht) toggles _
      (fun t ht => (populate_unchecked_wf sd rp t ht).2) t ht
  have hne2 : noEmptyB t = true :=
    applyToggles_all (fun s _ p t ht => toggleAux_noEmpty s p t ht) toggles _ hne t ht
  exact (claim_of_inv t hinv hwf hne2).1

theorem c1_tri_state_invariant_amended_witness :
    (∀ t ∈ populate c1wScan ["r"], noEmptyB t = true) ∧
    (∀ t ∈ applyToggles (populate c1wScan ["r"]) [([0, 0], true)], claimInvB t = true) :=
  have h : ∀ t ∈ populate c1wScan ["r"], noEmptyB t = true := by
    simp [populate, buildList, buildItem, sortItems, insertItem, itemLe, pyLower,
      charListLe, Char.toLower, Item.isDir, Item.name, c1wScan, noEmptyB, noEmptyList]
  ⟨h, c1_tri_state_invariant_amended c1wScan ["r"] h [([0, 0], true)]⟩

/-- C1 counterexample: a scan result with one empty directory (the
scanner produces these for excluded-only, unreadable or cyclic
directories).  Already after the empty toggle sequence the claimed
characterization fails on the empty directory: it has no descendant File
leaves, so the claim requires it to be both Checked (all leaves Checked,
vacuously) and Unchecked (no leaf Checked, vacuously), while its state
is Unchecked. -/
theorem c1_counterexample :
    ¬ (∀ t ∈ applyToggles (populate c1exScan ["r"]) [], claimInvB t = true) := by
  intro h
  have := h (Item.mk "E" ["r", "E"] true .unchecked []) (by
    simp [applyToggles, populate, buildList, buildItem, sortItems, insertItem,
      c1exScan])
  simp [claimInvB, claimInvList, leafStatesList] at this

theorem roundTrip_aux :
    ∀ (p : List Nat) (t : Item), invB t = true → stateAt t p = some .unchecked →
      (toggleAux .unchecked p (toggleAux .checked p t).1).1 = t ∧
      (toggleAux .unchecked p (toggleAux .checked p t).1).2 =
        (toggleAux .checked p t).2 := by
  intro p
  induction p with
  | nil =>
    intro t hinv hst
    simp only [stateAt, Option.some.injEq] at hst
    have hall := allState_unchecked_of_inv t hinv hst
    constructor
    · simp only [toggleAux]
      exact setAllState_of_allState .unchecked t hall .checked
    · simp [toggleAux]
  | cons i rest ih =>
    intro t hinv hst
    cases t with
    | mk n p0 d st cs =>
      simp only [stateAt, Item.children] at hst
      cases hget : cs[i]? with
      | none => rw [hget] at hst; simp at hst
      | some c =>
        rw [hget] at hst
        rw [invB_mk_iff] at hinv
        obtain ⟨hmix, hrec, hchi⟩ := hinv
        have hcne : cs ≠ [] := by intro h0; rw [h0] at hget; simp at hget
        have hinvc := hchi c (List.getElem?_mem hget)
        obtain ⟨hrt, hfl⟩ := ih c hinvc hst
        have hlen : i < cs.length := by
          rcases List.getElem?_eq_some_iff.mp hget with ⟨h1, _⟩
          exact h1
        have hget1 : (cs.set i (toggleAux CState.checked rest c).1)[i]? =
            some ((toggleAux CState.checked rest c).1) :=
          List.getElem?_set_self hlen
        have hsetc : cs.set i c = cs := set_of_getElem? cs i c hget
        have hbase : recomputeOf (statesOf cs) = st := (hrec hcne).symm
        have hcollapse :
            (cs.set i (toggleAux CState.checked rest c).1).set i
                (toggleAux CState.unchecked rest (toggleAux CState.checked rest c).1).1 = cs := by
          rw [hrt, List.set_set, hsetc]
        cases hr12 : (toggleAux CState.checked rest c).2 with
        | false =>
          have hr22 :
              (toggleAux CState.unchecked rest (toggleAux CState.checked rest c).1).2 = false := by
            rw [hfl, hr12]
          constructor
          · simp only [toggleAux, hget, hr12, Bool.false_eq_true, if_false]
            simp only [toggleAux, hget1, hr22, Bool.false_eq_true, if_false]
            rw [hcollapse]
          · simp only [toggleAux, hget, hr12, Bool.false_eq_true, if_false]
            simp only [toggleAux, hget1, hr22, Bool.false_eq_true, if_false]
        | true =>
          have hr22 :
              (toggleAux CState.unchecked rest (toggleAux CState.checked rest c).1).2 = true := by
            rw [hfl, hr12]
          by_cases hns1 :
              recomputeOf (statesOf (cs.set i (toggleAux CState.checked rest c).1)) = st
          · constructor
            · simp only [toggleAux, hget, hr12, if_true]
              rw [if_pos hns1]
              simp only [toggleAux, hget1, hr22, if_true]
              rw [hcollapse, if_pos hbase]
            · simp only [toggleAux, hget, hr12, if_true]
              rw [if_pos hns1]
              simp only [toggleAux, hget1, hr22, if_true]
              rw [hcollapse, if_pos hbase]
          · constructor
            · simp only [toggleAux, hget, hr12, if_true]
              rw [if_neg hns1]
              simp only [toggleAux, hget1, hr22, if_true]
              rw [hcollapse, hbase, if_neg (fun h0 => hns1 h0.symm)]
            · simp only [toggleAux, hget, hr12, if_true]
              rw [if_neg hns1]
              simp only [toggleAux, hget1, hr22, if_true]
              rw [hcollapse, hbase, if_neg (fun h0 => hns1 h0.symm)]

/-- C2 amended: in any reachable selection state, toggling a node whose
current state is Unchecked (hence whose whole subtree is Unchecked) to
Checked and then immediately to Unchecked restores the exact pre-toggle
state of the entire tree.  The restriction to Unchecked nodes is forced:
the two toggles collapse the subtree, so any Checked descendant of the
toggled node is lost. -/
theorem c2_round_trip_amended (f : List Item) (p : List Nat)
    (hre : Reachable f) (hst : stateAtForest f p = some .unchecked) :
    toggleForest .unchecked (toggleForest .checked f p) p = f := by
  cases p with
  | nil => simp [stateAtForest] at hst
  | cons i rest =>
    simp only [stateAtForest] at hst
    cases hget : f[i]? with
    | none => rw [hget] at hst; simp at hst
    | some t =>
      rw [hget] at hst
      have hinv := reachable_inv hre t (List.getElem?_mem hget)
      obtain ⟨hrt, _⟩ := roundTrip_aux rest t hinv hst
      have hlen : i < f.length := by
        rcases List.getElem?_eq_some_iff.mp hget with ⟨h1, _⟩
        exact h1
      have hget1 : (f.set i (toggleAux CState.checked rest t).1)[i]? =
          some ((toggleAux CState.checked rest t).1) :=
        List.getElem?_set_self hlen
      simp only [toggleForest, hget]
      simp only [toggleForest, hget1]
      rw [hrt, List.set_set, set_of_getElem? f i t hget]

theorem c2_round_trip_amended_witness :
    toggleForest .unchecked (toggleForest .checked (populate c2exScan ["r"]) [0, 0]) [0, 0] =
      populate c2exScan ["r"] :=
  c2_round_trip_amended (populate c2exScan ["r"]) [0, 0]
    ⟨c2exScan, ["r"], [], by simp [applyToggles]⟩
    (by simp [populate, buildList, buildItem, sortItems, insertItem, itemLe, pyLower,
      charListLe, Char.toLower, Item.isDir, Item.name, c2exScan, stateAtForest, stateAt,
      Item.children, Item.state])

/-- C2 counterexample: starting from the populate output of a scan with
one directory D holding files f and g, toggle f to Checked (a reachable
state with D Partial).  Toggling D to Checked and then to Unchecked does
not restore that state: the collapse loses that f was Checked. -/
theorem c2_counterexample :
    toggleForest .unchecked
        (toggleForest .checked
          (applyToggles (populate c2exScan ["r"]) [([0, 0], true)]) [0]) [0] ≠
      applyToggles (populate c2exScan ["r"]) [([0, 0], true)] := by
  intro h
  simp [applyToggles, populate, buildList, buildItem, sortItems, insertItem, itemLe,
    pyLower, charListLe, Char.toLower, Item.isDir, Item.name, c2exScan, toggleForest,
    toggleAux, setAllState, setAllList, recomputeOf, statesOf, Item.state] at h

theorem refList_append : ∀ l1 l2 : List Item,
    refList (l1 ++ l2) = refList l1 ++ refList l2 := by
  intro l1 l2
  induction l1 with
  | nil => simp [refList]
  | cons c cs ih => simp [refList, ih]

theorem gcfAux_eq_refList : ∀ st : List Item, gcfAux st = refList st := by
  have H : ∀ (n : Nat) (st : List Item), itemSizeList st ≤ n → gcfAux st = refList st := by
    intro n
    induction n with
    | zero =>
      intro st h
      cases st with
      | nil => simp [gcfAux, refList]
      | cons t rest =>
        exfalso
        rw [itemSizeList_cons] at h
        have := itemSize_pos t
        omega
    | succ n ih =>
      intro st h
      cases st with
      | nil => simp [gcfAux, refList]
      | cons t rest =>
        have hlt : itemSizeList
            ((t.children.filter (fun c => !c.children.isEmpty)).reverse ++ rest) ≤ n := by
          rw [itemSizeList_append, itemSizeList_reverse, itemSizeList_cons] at *
          have h1 := itemSizeList_filter_le (fun c => !c.children.isEmpty) t.children
          have h2 := itemSizeList_children_lt t
          omega
        cases t with
        | mk nm pth dd stt cs =>
          rw [gcfAux, ih _ hlt, refList_append, refList]
          simp [refNode, Item.children]
  intro st
  exact H (itemSizeList st) st (Nat.le_refl _)

/-- C4 amended: get_checked_files returns exactly the stored paths of
the childless Checked items (files and empty directories alike), in a
deterministic order that is not the documented directories-first
depth-first order: each processed node contributes its childless Checked
children in row order, then the contents of its directory children in
reverse row order, depth first. -/
theorem c4_checked_files_amended (f : List Item) :
    get_checked_files f = checkedFilesRef f := by
  rw [get_checked_files, checkedFilesRef, gcfAux_eq_refList]
  simp [refList]

/-- C4 counterexample: a reachable tree (files a and c checked, empty
directory E checked) on which get_checked_files disagrees with the
documented directories-first depth-first collection of Checked File
leaves: the code emits the checked empty directory E and the root level
file c before descending into D1. -/
theorem c4_counterexample :
    get_checked_files
        (applyToggles (populate c4exScan ["r"]) [([0, 0], true), ([2], true), ([1], true)]) ≠
      specOrderForest
        (applyToggles (populate c4exScan ["r"]) [([0, 0], true), ([2], true), ([1], true)]) := by
  intro h
  simp [applyToggles, populate, buildList, buildItem, sortItems, insertItem, itemLe,
    pyLower, charListLe, Char.toLower, Item.isDir, Item.name, c4exScan, toggleForest,
    toggleAux, setAllState, setAllList, recomputeOf, statesOf, Item.state, Item.children,
    get_checked_files, gcfAux, Item.path] at h
  simp [specOrderForest, specOrderList, specOrderItem, Item.path, Item.children,
    Item.state] at h
